import Mathlib

/-!
# Verification of the MPI+OpenMP distributed matrix transpose

Shallow embedding of `src/MPIOPENMP/Transpose/transpose.c`.

The program stores, per rank, a column block of the order×order matrix in a
flat, column-major `double` buffer; matrix element `(i,j)` of the block lives
at flat index `(i+istart) + order*j` (the `A`/`B` macros).  Each iteration
performs a local self-transpose, then `Num_procs-1` ring-exchange phases, each
phase transposing an outgoing block into a workspace, exchanging it with a
partner, and scattering the received block into `B`.

Buffers are modelled as total functions `ℕ → ℚ` (all values arising in the
program are exactly representable doubles: small integers, `-1` sentinels and
copies thereof, so exact rational arithmetic models the FP computation
faithfully).  Every loop nest is modelled as the list of (flat index, value)
writes it performs, executed in program order by `runWrites`.
-/

namespace PRKTranspose

/-- A flat memory buffer of doubles, modelled exactly. -/
abbrev Buf := ℕ → ℚ

/-- The index list of the C loop `for (v = lo; v < hi; v++)`. -/
def upto (lo hi : ℕ) : List ℕ := List.range' lo (hi - lo)

/-- The index list of the C loop `for (v = 0; v < hi; v += step)` (for `step > 0`). -/
def steps (hi step : ℕ) : List ℕ :=
  (List.range ((hi + step - 1) / step)).map (fun k => k * step)

/-- Execute a list of writes (position, value) in order on a buffer. -/
def runWrites (ws : List (ℕ × ℚ)) (buf : Buf) : Buf :=
  ws.foldl (fun b w => Function.update b w.1 w.2) buf

/-- A doubly nested loop `for a < n1: for b < n2: write (f a b)`. -/
def loop2 (n1 n2 : ℕ) (f : ℕ → ℕ → ℕ × ℚ) : List (ℕ × ℚ) :=
  (upto 0 n1).flatMap fun a => (upto 0 n2).map fun b => f a b

theorem mem_upto {lo hi v : ℕ} : v ∈ upto lo hi ↔ lo ≤ v ∧ v < hi := by
  unfold upto
  rw [List.mem_range']
  constructor
  · rintro ⟨i, hi', rfl⟩; omega
  · intro h; exact ⟨v - lo, by omega, by omega⟩

theorem mem_loop2 {n1 n2 : ℕ} {f : ℕ → ℕ → ℕ × ℚ} {x : ℕ × ℚ} :
    x ∈ loop2 n1 n2 f ↔ ∃ a b, a < n1 ∧ b < n2 ∧ x = f a b := by
  unfold loop2
  simp only [List.mem_flatMap, List.mem_map, mem_upto]
  constructor
  · rintro ⟨a, ⟨_, ha⟩, b, ⟨_, hb⟩, rfl⟩; exact ⟨a, b, ha, hb, rfl⟩
  · rintro ⟨a, b, ha, hb, rfl⟩; exact ⟨a, ⟨Nat.zero_le _, ha⟩, b, ⟨Nat.zero_le _, hb⟩, rfl⟩

/-- If every write in `ws` that targets `p` writes the value `v`, and either
some write targets `p` or the buffer already holds `v` there, then after `ws`
the buffer holds `v` at `p`. -/
theorem runWrites_const {ws : List (ℕ × ℚ)} {p : ℕ} {v : ℚ} :
    ∀ {buf : Buf}, (∀ w ∈ ws, w.1 = p → w.2 = v) → ((p, v) ∈ ws ∨ buf p = v) →
      runWrites ws buf p = v := by
  induction ws with
  | nil =>
    intro buf _ hbase
    rcases hbase with h | h
    · simp at h
    · exact h
  | cons w t ih =>
    intro buf hval hbase
    have hval' : ∀ w' ∈ t, w'.1 = p → w'.2 = v := fun w' hw' => hval w' (by simp [hw'])
    refine ih hval' ?_
    rcases hbase with h | h
    · rcases List.mem_cons.1 h with h | h
      · right
        rw [← h]
        simp [Function.update]
      · left; exact h
    · by_cases hw : w.1 = p
      · right
        have := hval w (by simp) hw
        subst hw
        simp [Function.update, this]
      · right
        simpa [Function.update, Ne.symm hw] using h

/-- A position no write in `ws` targets is unchanged by `runWrites`. -/
theorem runWrites_ne {ws : List (ℕ × ℚ)} {p : ℕ} :
    ∀ {buf : Buf}, (∀ w ∈ ws, w.1 ≠ p) → runWrites ws buf p = buf p := by
  induction ws with
  | nil => intro buf _; rfl
  | cons w t ih =>
    intro buf h
    have hw : w.1 ≠ p := h w (by simp)
    have ht : ∀ w' ∈ t, w'.1 ≠ p := fun w' hw' => h w' (by simp [hw'])
    rw [runWrites, List.foldl_cons, ← runWrites, ih ht]
    simp [Function.update, Ne.symm hw]

/-!
## The local transpose loop nests

The untiled self-transpose (lines 331-337) is
`for i < Block_order: for j < Block_order: B(j,i) = A(i,j)`,
i.e. a write to flat index `(j+istart) + order*i` of the value at flat index
`(i+istart) + order*j`.  The outgoing-block loop (lines 362-368) writes
`Work_out(j,i) = A(i,j)`, i.e. flat index `j + Block_order*i` inside the
workspace.  Both are instances of one scheme with destination stride/offset
`dStr`/`dOff` and source stride/offset `sStr`/`sOff`.
-/

/-- Write list of the untiled (flat) transpose loop nest. -/
def flatTransposeWrites (Bo dStr dOff sStr sOff : ℕ) (src : Buf) : List (ℕ × ℚ) :=
  loop2 Bo Bo fun i j => ((j + dOff) + dStr * i, src ((i + sOff) + sStr * j))

/-- Write list of the tiled transpose loop nest (lines 344-349 / 375-380):
`for i < Bo step T: for j < Bo step T: for it in [i, min Bo (i+T)):
for jt in [j, min Bo (j+T)): B(jt,it) = A(it,jt)`. -/
def tiledTransposeWrites (Bo T dStr dOff sStr sOff : ℕ) (src : Buf) : List (ℕ × ℚ) :=
  (steps Bo T).flatMap fun i =>
    (steps Bo T).flatMap fun j =>
      (upto i (min Bo (i + T))).flatMap fun it =>
        (upto j (min Bo (j + T))).map fun jt =>
          ((jt + dOff) + dStr * it, src ((it + sOff) + sStr * jt))

/-- Concatenating the per-tile index ranges along one axis recovers the
untiled index range exactly. -/
theorem steps_flatMap_tile (T : ℕ) (hT : 0 < T) (Bo : ℕ) :
    ((steps Bo T).flatMap fun i => upto i (min Bo (i + T))) = upto 0 Bo := by
  have key : ∀ k : ℕ,
      (((List.range k).map (fun j => j * T)).flatMap fun i => upto i (min Bo (i + T)))
        = upto 0 (min Bo (k * T)) := by
    intro k
    induction k with
    | zero => simp [upto]
    | succ k ih =>
      rw [List.range_succ, List.map_append, List.flatMap_append, ih]
      simp only [List.map_cons, List.map_nil, List.flatMap_cons, List.flatMap_nil,
        List.append_nil]
      have hstep : (k + 1) * T = k * T + T := by ring
      by_cases hk : Bo ≤ k * T
      · have h1 : min Bo (k * T) = Bo := by omega
        have h2 : min Bo ((k + 1) * T) = Bo := by rw [hstep]; omega
        have h3 : min Bo (k * T + T) = Bo := by omega
        rw [h1, h2, h3]
        have : upto (k * T) Bo = [] := by
          unfold upto
          rw [List.range'_eq_nil]
          omega
        simp [this]
      · push_neg at hk
        have h1 : min Bo (k * T) = k * T := by omega
        rw [h1, hstep]
        unfold upto
        simp only [Nat.sub_zero]
        have := List.range'_append_1 0 (k * T) (min Bo (k * T + T) - k * T)
        simp only [Nat.zero_add] at this
        rw [this]
        congr 1
        omega
  have hBo : Bo ≤ ((Bo + T - 1) / T) * T := by
    obtain ⟨x, hx⟩ : ∃ x, x = T * ((Bo + T - 1) / T) := ⟨_, rfl⟩
    obtain ⟨r, hr⟩ : ∃ r, r = (Bo + T - 1) % T := ⟨_, rfl⟩
    have h1 := Nat.div_add_mod (Bo + T - 1) T
    have h2 : (Bo + T - 1) % T < T := Nat.mod_lt _ hT
    rw [← hx, ← hr] at h1
    rw [← hr] at h2
    calc Bo ≤ x := by omega
      _ = T * ((Bo + T - 1) / T) := hx
      _ = ((Bo + T - 1) / T) * T := Nat.mul_comm _ _
  rw [steps, key]
  congr 1
  omega

/-- `flatMap` of a pointwise append is a permutation of the append of the
`flatMap`s. -/
theorem flatMap_append_perm {α β : Type} (l : List α) (p q : α → List β) :
    (l.flatMap fun b => p b ++ q b).Perm (l.flatMap p ++ l.flatMap q) := by
  induction l with
  | nil => simp
  | cons b l ih =>
    simp only [List.flatMap_cons]
    calc ((p b ++ q b) ++ l.flatMap fun b => p b ++ q b).Perm
          ((p b ++ q b) ++ (l.flatMap p ++ l.flatMap q)) := ih.append_left _
      _ = p b ++ (q b ++ (l.flatMap p ++ l.flatMap q)) := by simp [List.append_assoc]
      _ |>.Perm (p b ++ (l.flatMap p ++ (q b ++ l.flatMap q))) := by
          refine List.Perm.append_left _ ?_
          calc (q b ++ (l.flatMap p ++ l.flatMap q)).Perm
                ((q b ++ l.flatMap p) ++ l.flatMap q) := by rw [List.append_assoc]
            _ |>.Perm ((l.flatMap p ++ q b) ++ l.flatMap q) :=
                (List.perm_append_comm).append_right _
            _ = l.flatMap p ++ (q b ++ l.flatMap q) := by rw [List.append_assoc]
      _ = (p b ++ l.flatMap p) ++ (q b ++ l.flatMap q) := by rw [List.append_assoc]

/-- Swapping two adjacent `flatMap`s permutes the result. -/
theorem flatMap_swap_perm {α β γ : Type} (l₁ : List α) (l₂ : List β) (g : α → β → List γ) :
    (l₁.flatMap fun a => l₂.flatMap fun b => g a b).Perm
      (l₂.flatMap fun b => l₁.flatMap fun a => g a b) := by
  induction l₁ with
  | nil => simp
  | cons a l₁ ih =>
    simp only [List.flatMap_cons]
    refine List.Perm.trans ?_ (flatMap_append_perm l₂ (g a) _).symm
    exact (ih.append_left _)

/-- Pointwise-permutation congruence for `flatMap`. -/
theorem flatMap_perm_congr {α β : Type} {l : List α} {f g : α → List β}
    (h : ∀ a ∈ l, (f a).Perm (g a)) : (l.flatMap f).Perm (l.flatMap g) := by
  induction l with
  | nil => simp
  | cons a l ih =>
    simp only [List.flatMap_cons]
    exact (h a (by simp)).append (ih fun a ha => h a (by simp [ha]))

/-- The tiled transpose performs exactly the writes of the flat transpose, in a
different order: the write lists are permutations of each other. -/
theorem tiled_perm_flat (Bo T dStr dOff sStr sOff : ℕ) (hT : 0 < T) (src : Buf) :
    (tiledTransposeWrites Bo T dStr dOff sStr sOff src).Perm
      (flatTransposeWrites Bo dStr dOff sStr sOff src) := by
  set g : ℕ → ℕ → ℕ × ℚ :=
    fun it jt => ((jt + dOff) + dStr * it, src ((it + sOff) + sStr * jt)) with hg
  have inner : ∀ i ∈ steps Bo T,
      (((steps Bo T).flatMap fun j =>
          (upto i (min Bo (i + T))).flatMap fun it =>
            (upto j (min Bo (j + T))).map fun jt => g it jt)).Perm
        ((upto i (min Bo (i + T))).flatMap fun it =>
          (upto 0 Bo).map fun jt => g it jt) := by
    intro i _
    refine List.Perm.trans
      (flatMap_swap_perm (steps Bo T) (upto i (min Bo (i + T)))
        (fun j it => (upto j (min Bo (j + T))).map fun jt => g it jt)) ?_
    refine flatMap_perm_congr fun it _ => ?_
    have : ((steps Bo T).flatMap fun j => (upto j (min Bo (j + T))).map fun jt => g it jt)
        = (((steps Bo T).flatMap fun j => upto j (min Bo (j + T))).map fun jt => g it jt) := by
      rw [List.map_flatMap]
    rw [this, steps_flatMap_tile T hT Bo]
  refine List.Perm.trans (flatMap_perm_congr inner) ?_
  have : ((steps Bo T).flatMap fun i =>
        (upto i (min Bo (i + T))).flatMap fun it => (upto 0 Bo).map fun jt => g it jt)
      = (((steps Bo T).flatMap fun i => upto i (min Bo (i + T))).flatMap fun it =>
          (upto 0 Bo).map fun jt => g it jt) := by
    rw [List.flatMap_assoc]
  rw [this, steps_flatMap_tile T hT Bo]
  exact List.Perm.refl _

/-!
## Index arithmetic for column-major flat addressing
-/

theorem addMulLt {i j d b : ℕ} (hi : i < d) (hj : j < b) : i + d * j < d * b := by
  calc i + d * j < d + d * j := by omega
    _ = d * (j + 1) := by ring
    _ ≤ d * b := Nat.mul_le_mul_left d (by omega)

theorem addMulInj {d i₁ j₁ i₂ j₂ : ℕ} (h1 : i₁ < d) (h2 : i₂ < d)
    (h : i₁ + d * j₁ = i₂ + d * j₂) : i₁ = i₂ ∧ j₁ = j₂ := by
  have hd : 0 < d := by omega
  have hj : j₁ = j₂ := by
    have e1 : (i₁ + d * j₁) / d = j₁ := by
      rw [Nat.add_mul_div_left _ _ hd, Nat.div_eq_of_lt h1, Nat.zero_add]
    have e2 : (i₂ + d * j₂) / d = j₂ := by
      rw [Nat.add_mul_div_left _ _ hd, Nat.div_eq_of_lt h2, Nat.zero_add]
    rw [← e1, ← e2, h]
  constructor
  · have := hj ▸ h
    omega
  · exact hj

/-!
## The local transpose as run by the program (lines 331-350 and 362-381)

The program selects the tiled nest when the `tiling` flag is set and the flat
nest otherwise.
-/

/-- Model of the local transpose statement block: tiled nest when `tiling`,
flat nest otherwise. -/
def transposeWrites (tiling : Bool) (Bo T dStr dOff sStr sOff : ℕ) (src : Buf) :
    List (ℕ × ℚ) :=
  if tiling then tiledTransposeWrites Bo T dStr dOff sStr sOff src
  else flatTransposeWrites Bo dStr dOff sStr sOff src

theorem mem_flatTransposeWrites {Bo dStr dOff sStr sOff : ℕ} {src : Buf} {x : ℕ × ℚ} :
    x ∈ flatTransposeWrites Bo dStr dOff sStr sOff src ↔
      ∃ i j, i < Bo ∧ j < Bo ∧ x = ((j + dOff) + dStr * i, src ((i + sOff) + sStr * j)) :=
  mem_loop2

theorem mem_transposeWrites {tiling : Bool} {Bo T dStr dOff sStr sOff : ℕ} {src : Buf}
    (hT : tiling = true → 0 < T) {x : ℕ × ℚ} :
    x ∈ transposeWrites tiling Bo T dStr dOff sStr sOff src ↔
      ∃ i j, i < Bo ∧ j < Bo ∧ x = ((j + dOff) + dStr * i, src ((i + sOff) + sStr * j)) := by
  cases tiling with
  | false =>
    rw [transposeWrites, if_neg (by simp)]
    exact mem_flatTransposeWrites
  | true =>
    rw [transposeWrites, if_pos rfl,
      (tiled_perm_flat Bo T dStr dOff sStr sOff (hT rfl) src).mem_iff]
    exact mem_flatTransposeWrites

/-- Evaluating the transpose block: destination element `(i,j)` receives the
source element `(j,i)` of the addressed region, whichever strategy runs. -/
theorem runWrites_transpose_eq {tiling : Bool} {Bo T dStr dOff sStr sOff : ℕ} {src : Buf}
    (hT : tiling = true → 0 < T) (hBo : Bo ≤ dStr) {i j : ℕ} (hi : i < Bo) (hj : j < Bo)
    (base : Buf) :
    runWrites (transposeWrites tiling Bo T dStr dOff sStr sOff src) base ((j + dOff) + dStr * i)
      = src ((i + sOff) + sStr * j) := by
  apply runWrites_const
  · intro w hw hwp
    obtain ⟨i', j', hi', hj', rfl⟩ := (mem_transposeWrites hT).1 hw
    simp only at hwp ⊢
    have hstrip : j' + dStr * i' = j + dStr * i := by linarith
    obtain ⟨e1, e2⟩ := addMulInj (by omega) (by omega) hstrip
    rw [e1, e2]
  · left
    exact (mem_transposeWrites hT).2 ⟨i, j, hi, hj, rfl⟩

/-- The transpose block leaves positions outside its destination region alone. -/
theorem runWrites_transpose_ne {tiling : Bool} {Bo T dStr dOff sStr sOff : ℕ} {src : Buf}
    (hT : tiling = true → 0 < T) {p : ℕ}
    (hp : ∀ i j, i < Bo → j < Bo → (j + dOff) + dStr * i ≠ p) (base : Buf) :
    runWrites (transposeWrites tiling Bo T dStr dOff sStr sOff src) base p = base p := by
  apply runWrites_ne
  intro w hw
  obtain ⟨i', j', hi', hj', rfl⟩ := (mem_transposeWrites hT).1 hw
  exact hp i' j' hi' hj'

/-!
## The scatter loop (lines 394-400)

`istart = recv_from*Block_order; for j < Block_order: for i < Block_order:
B(i,j) = Work_in(i,j)`, i.e. a write to flat index `(i+istart) + order*j` of
workspace value at flat index `i + Block_order*j`.
-/

def scatterWrites (order Bo istart : ℕ) (work : Buf) : List (ℕ × ℚ) :=
  loop2 Bo Bo fun j i => ((i + istart) + order * j, work (i + Bo * j))

theorem mem_scatterWrites {order Bo istart : ℕ} {work : Buf} {x : ℕ × ℚ} :
    x ∈ scatterWrites order Bo istart work ↔
      ∃ j i, j < Bo ∧ i < Bo ∧ x = ((i + istart) + order * j, work (i + Bo * j)) :=
  mem_loop2

theorem runWrites_scatter_eq {order Bo istart : ℕ} {work : Buf}
    (hio : Bo + istart ≤ order) {i j : ℕ} (hi : i < Bo) (hj : j < Bo) (base : Buf) :
    runWrites (scatterWrites order Bo istart work) base ((i + istart) + order * j)
      = work (i + Bo * j) := by
  apply runWrites_const
  · intro w hw hwp
    obtain ⟨j', i', hj', hi', rfl⟩ := mem_scatterWrites.1 hw
    simp only at hwp ⊢
    obtain ⟨e1, e2⟩ := addMulInj (d := order) (by omega) (by omega) hwp
    have : i' = i := by omega
    rw [this, e2]
  · left
    exact mem_scatterWrites.2 ⟨j, i, hj, hi, rfl⟩

theorem runWrites_scatter_ne {order Bo istart : ℕ} {work : Buf} {p : ℕ}
    (hp : ∀ i j, i < Bo → j < Bo → (i + istart) + order * j ≠ p) (base : Buf) :
    runWrites (scatterWrites order Bo istart work) base p = base p := by
  apply runWrites_ne
  intro w hw
  obtain ⟨j', i', hj', hi', rfl⟩ := mem_scatterWrites.1 hw
  exact hp i' j' hi' hj'

/-!
## The ring-exchange schedule (lines 352-354)

`recv_from = (my_ID + phase) % Num_procs` and
`send_to = (my_ID - phase + Num_procs) % Num_procs`.  In C the subtraction is
performed in `size_t`; since `0 ≤ my_ID` and `phase < Num_procs`, the value
`my_ID - phase + Num_procs` is mathematically in `[1, 2*Num_procs)`, so the
two wraparounds mod `2^64` cancel and the computed rank equals
`(my_ID + Num_procs - phase) % Num_procs`.
-/

def recvFrom (numProcs myID phase : ℕ) : ℕ := (myID + phase) % numProcs

def sendTo (numProcs myID phase : ℕ) : ℕ := (myID + numProcs - phase) % numProcs

theorem recvFrom_eq {n m φ : ℕ} (hm : m < n) (hφ : φ < n) :
    recvFrom n m φ = if m + φ < n then m + φ else m + φ - n := by
  unfold recvFrom
  split
  · exact Nat.mod_eq_of_lt (by omega)
  · rw [Nat.mod_eq_sub_mod (by omega)]
    exact Nat.mod_eq_of_lt (by omega)

theorem sendTo_eq {n m φ : ℕ} (hm : m < n) (hφ : φ < n) :
    sendTo n m φ = if φ ≤ m then m - φ else m + n - φ := by
  unfold sendTo
  split
  · rw [Nat.mod_eq_sub_mod (by omega)]
    have : m + n - φ - n = m - φ := by omega
    rw [this]
    exact Nat.mod_eq_of_lt (by omega)
  · exact Nat.mod_eq_of_lt (by omega)

theorem recvFrom_lt {n m φ : ℕ} (hn : 0 < n) : recvFrom n m φ < n := Nat.mod_lt _ hn

/-- The partner a peer receives from in a phase targets exactly that peer with
its send: `send_to(recv_from(m)) = m`. -/
theorem sendTo_recvFrom {n m φ : ℕ} (hm : m < n) (hφ : φ < n) :
    sendTo n (recvFrom n m φ) φ = m := by
  rw [recvFrom_eq hm hφ]
  split
  · rw [sendTo_eq (by omega) hφ]
    split <;> omega
  · rw [sendTo_eq (by omega) hφ]
    split <;> omega

theorem recvFrom_inj {n m φ₁ φ₂ : ℕ} (hm : m < n) (h1 : φ₁ < n) (h2 : φ₂ < n)
    (h : recvFrom n m φ₁ = recvFrom n m φ₂) : φ₁ = φ₂ := by
  rw [recvFrom_eq hm h1, recvFrom_eq hm h2] at h
  split at h <;> split at h <;> omega

/-!
## The tiling decision (lines 236-243)

```
tiling = (Tile_order > 0) && (Tile_order < order);
concurrency = ceil((double)Block_order/(double)Tile_order);
#ifdef COLLAPSE
concurrency *= concurrency;
#endif
if (tiling && (concurrency < nthread_input)) tiling = 0;
```

For `Tile_order > 0` the double division and `ceil` are exact and the stored
`int` equals `⌈Block_order / Tile_order⌉ = (Block_order + Tile_order - 1) /
Tile_order`.  `concurrency` is a 32-bit signed `int`: the optional COLLAPSE
squaring `concurrency *= concurrency` overflows once the ceiling exceeds
`⌊√(2³¹-1)⌋ = 46340`, and on the two's-complement hardware this program runs
on the stored result wraps (modelled by `wrap32`).  For `Tile_order = 0` the
division yields `+inf` and the conversion to `int` produces some
platform-dependent value; `tilingWith` therefore takes the converted value as
an explicit integer parameter.
-/

/-- The decision logic with the computed concurrency passed in. -/
def tilingWith (order T : ℕ) (nthreads conc : ℤ) : Bool :=
  let t := decide (0 < T) && decide (T < order)
  if t && decide (conc < nthreads) then false else t

/-- Two's-complement wraparound of a value stored in a 32-bit signed `int`. -/
def wrap32 (x : ℤ) : ℤ := (x + 2 ^ 31) % 2 ^ 32 - 2 ^ 31

/-- The concurrency held in the C `int` (lines 239-242): the exact value of
`ceil((double)Block_order/(double)Tile_order)` for a positive tile order,
and, under the COLLAPSE variant, the result of the 32-bit multiply
`concurrency *= concurrency`, which wraps on overflow. -/
def concurrencyOf (Bo T : ℕ) (collapse : Bool) : ℤ :=
  let c : ℤ := ((Bo + T - 1) / T : ℕ)
  if collapse then wrap32 (c * c) else c

/-- The concurrency as the spec words it: `ceil(Block_order / tileOrder)`,
squared under the 2-D COLLAPSE variant, in exact (unbounded) arithmetic. -/
def specConcurrency (Bo T : ℕ) (collapse : Bool) : ℕ :=
  let c := (Bo + T - 1) / T
  if collapse then c * c else c

/-- The tiling flag the program runs with. -/
def tilingFlag (order T Bo nthreads : ℕ) (collapse : Bool) : Bool :=
  tilingWith order T (nthreads : ℤ) (concurrencyOf Bo T collapse)

theorem tilingFlag_T_pos {order T Bo nthreads : ℕ} {collapse : Bool}
    (h : tilingFlag order T Bo nthreads collapse = true) : 0 < T := by
  unfold tilingFlag tilingWith at h
  by_cases hT : 0 < T
  · exact hT
  · simp [hT] at h

/-!
## The engine state and one iteration (lines 321-403)

Global state of the run: per peer (indexed by rank), the source column block
`A`, the destination column block `B`, and the workspace allocation `W`
(`Work_in_p` occupies flat indices `[0, Block_size)`, and
`Work_out_p = Work_in_p + Block_size` occupies `[Block_size, 2*Block_size)`).
The message exchange of a phase copies `Block_size` doubles of the partner's
`Work_out` into the local `Work_in`.
-/

structure GState where
  A : ℕ → Buf
  B : ℕ → Buf
  W : ℕ → Buf

/-- One phase of the staged communication, executed by all peers:
each peer transposes the block destined for `send_to` into its `Work_out`
(lines 361-381), exchanges workspaces with its partners (lines 383-392), and
scatters the received block into `B` (lines 394-400). -/
def phaseStep (order Bo n T : ℕ) (tiling : Bool) (s : GState) (phase : ℕ) : GState :=
  let W1 : ℕ → Buf := fun m =>
    runWrites
      (transposeWrites tiling Bo T Bo (Bo * Bo) order (sendTo n m phase * Bo) (s.A m))
      (s.W m)
  let W2 : ℕ → Buf := fun m => fun idx =>
    if idx < Bo * Bo then W1 (recvFrom n m phase) (Bo * Bo + idx) else W1 m idx
  { A := s.A
    B := fun m =>
      runWrites (scatterWrites order Bo (recvFrom n m phase * Bo) (W2 m)) (s.B m)
    W := W2 }

/-- One full iteration: the local self-transpose with `istart = colstart`
(lines 330-350) followed by the `Num_procs - 1` exchange phases
(lines 352-402), where `colstart = Block_order * my_ID`. -/
def iteration (order Bo n T : ℕ) (tiling : Bool) (s : GState) : GState :=
  (upto 1 n).foldl (phaseStep order Bo n T tiling)
    { s with
      B := fun m =>
        runWrites (transposeWrites tiling Bo T order (Bo * m) order (Bo * m) (s.A m))
          (s.B m) }

/-!
## Correctness of one iteration
-/

/-- `A` holds the initial values (lines 295-319): the element of block column
`jA` and row `x` of peer `m` is `order*(jA + colstart) + x` with
`colstart = Block_order * m`. -/
def GoodA (order Bo n : ℕ) (s : GState) : Prop :=
  ∀ m, m < n → ∀ x, x < order → ∀ jA, jA < Bo →
    s.A m (x + order * jA) = ((order * (jA + Bo * m) + x : ℕ) : ℚ)

theorem inBlock_lt {j m Bo n : ℕ} (hj : j < Bo) (hm : m < n) : j + Bo * m < n * Bo := by
  have h1 : j + Bo * m < Bo * (m + 1) := by nlinarith
  have h2 : Bo * (m + 1) ≤ Bo * n := Nat.mul_le_mul_left Bo (by omega)
  calc j + Bo * m < Bo * (m + 1) := h1
    _ ≤ Bo * n := h2
    _ = n * Bo := Nat.mul_comm _ _

theorem phaseStep_A {order Bo n T : ℕ} {tiling : Bool} {s : GState} {φ : ℕ} :
    (phaseStep order Bo n T tiling s φ).A = s.A := rfl

theorem foldl_phaseStep_A {order Bo n T : ℕ} {tiling : Bool} (l : List ℕ) :
    ∀ s : GState, (l.foldl (phaseStep order Bo n T tiling) s).A = s.A := by
  induction l with
  | nil => intro s; rfl
  | cons φ t ih => intro s; rw [List.foldl_cons, ih, phaseStep_A]

theorem iteration_A {order Bo n T : ℕ} {tiling : Bool} {s : GState} :
    (iteration order Bo n T tiling s).A = s.A := by
  unfold iteration
  rw [foldl_phaseStep_A]

theorem phaseStep_B_frame {order Bo n T : ℕ} {tiling : Bool} {s : GState} {φ m p : ℕ}
    (hp : ∀ i j, i < Bo → j < Bo → (i + recvFrom n m φ * Bo) + order * j ≠ p) :
    (phaseStep order Bo n T tiling s φ).B m p = s.B m p := by
  show runWrites (scatterWrites order Bo (recvFrom n m φ * Bo) _) (s.B m) p = s.B m p
  exact runWrites_scatter_ne hp _

theorem foldl_phaseStep_B_frame {order Bo n T : ℕ} {tiling : Bool} {m p : ℕ} (l : List ℕ) :
    ∀ s : GState,
      (∀ φ ∈ l, ∀ i j, i < Bo → j < Bo → (i + recvFrom n m φ * Bo) + order * j ≠ p) →
      (l.foldl (phaseStep order Bo n T tiling) s).B m p = s.B m p := by
  induction l with
  | nil => intro s _; rfl
  | cons φ t ih =>
    intro s h
    rw [List.foldl_cons, ih _ fun φ' hφ' => h φ' (by simp [hφ']),
      phaseStep_B_frame (h φ (by simp))]

/-- The scatter of a phase deposits, at destination element `(i,j)` of the
`recv_from` row block of `B`, the element the partner transposed out of its
own `A` for us. -/
theorem phaseStep_B_write {order Bo n T : ℕ} {tiling : Bool} {s : GState} {φ m i j : ℕ}
    (horder : order = n * Bo) (hm : m < n) (hφ : φ < n)
    (hT : tiling = true → 0 < T) (hi : i < Bo) (hj : j < Bo) :
    (phaseStep order Bo n T tiling s φ).B m ((i + recvFrom n m φ * Bo) + order * j)
      = s.A (recvFrom n m φ) ((j + m * Bo) + order * i) := by
  have hn : 0 < n := by omega
  set r := recvFrom n m φ with hr
  have hrn : r < n := recvFrom_lt hn
  have hio : Bo + r * Bo ≤ order := by
    have h1 : (r + 1) * Bo ≤ n * Bo := Nat.mul_le_mul_right Bo (by omega)
    have h2 : (r + 1) * Bo = Bo + r * Bo := by ring
    omega
  show runWrites (scatterWrites order Bo (r * Bo) _) (s.B m) ((i + r * Bo) + order * j) = _
  rw [runWrites_scatter_eq hio hi hj]
  have hidx : i + Bo * j < Bo * Bo := addMulLt hi hj
  show (if i + Bo * j < Bo * Bo then _ else _) = _
  rw [if_pos hidx]
  show runWrites
      (transposeWrites tiling Bo T Bo (Bo * Bo) order (sendTo n r φ * Bo) (s.A r))
      (s.W r) (Bo * Bo + (i + Bo * j)) = _
  have hpos : Bo * Bo + (i + Bo * j) = (i + Bo * Bo) + Bo * j := by ring
  have hst : sendTo n r φ = m := by rw [hr]; exact sendTo_recvFrom hm hφ
  rw [hpos, runWrites_transpose_eq hT (le_refl Bo) hj hi (s.W r), hst]

/-- After one iteration on a state whose `A` blocks hold the initial matrix,
every element of `B` holds the transposed value `order*i + (j + colstart)`. -/
theorem iteration_correct {order Bo n T : ℕ} {tiling : Bool} {s : GState}
    (horder : order = n * Bo) (hT : tiling = true → 0 < T)
    (hA : GoodA order Bo n s) {m i j : ℕ} (hm : m < n) (hi : i < order) (hj : j < Bo) :
    (iteration order Bo n T tiling s).B m (i + order * j)
      = ((order * i + (j + Bo * m) : ℕ) : ℚ) := by
  have hn : 0 < n := by omega
  have hBo : 0 < Bo := by
    rcases Nat.eq_zero_or_pos Bo with h | h
    · subst h; rw [Nat.mul_zero] at horder; omega
    · exact h
  obtain ⟨r, i₀, hi₀, hrn, rfl⟩ :
      ∃ r i₀, i₀ < Bo ∧ r < n ∧ i = Bo * r + i₀ := by
    refine ⟨i / Bo, i % Bo, Nat.mod_lt _ hBo, ?_, (Nat.div_add_mod i Bo).symm⟩
    rw [Nat.div_lt_iff_lt_mul hBo]
    omega
  have hBoord : Bo ≤ order := by
    calc Bo = 1 * Bo := (Nat.one_mul Bo).symm
      _ ≤ n * Bo := Nat.mul_le_mul_right Bo hn
      _ = order := horder.symm
  have hrow_lt : ∀ i' r', i' < Bo → r' < n → i' + r' * Bo < order := by
    intro i' r' h1 h2
    have h3 := inBlock_lt h1 h2
    have h4 : i' + Bo * r' = i' + r' * Bo := by ring
    omega
  have hnot_in_scatter : ∀ φ, 1 ≤ φ → φ < n → recvFrom n m φ ≠ r →
      ∀ i' j', i' < Bo → j' < Bo →
        (i' + recvFrom n m φ * Bo) + order * j' ≠ (Bo * r + i₀) + order * j := by
    intro φ hφ1 hφn hne i' j' hi' hj' hcontra
    have hrfn : recvFrom n m φ < n := recvFrom_lt hn
    have h1 : i' + recvFrom n m φ * Bo < order := hrow_lt i' _ hi' hrfn
    have h3 : Bo * r + i₀ < order := by
      have := hrow_lt i₀ r hi₀ hrn
      omega
    obtain ⟨e1, _⟩ := addMulInj (d := order) h1 h3 hcontra
    have h5 : i' + Bo * recvFrom n m φ = i₀ + Bo * r := by nlinarith
    obtain ⟨_, e4⟩ := addMulInj (d := Bo) hi' hi₀ h5
    exact hne e4
  unfold iteration
  by_cases hcase : r = m
  · -- the element lies in this peer's own row block: written by the
    -- self-transpose, untouched by every later scatter
    have hframe : ∀ φ ∈ upto 1 n, ∀ i' j', i' < Bo → j' < Bo →
        (i' + recvFrom n m φ * Bo) + order * j' ≠ (Bo * r + i₀) + order * j := by
      intro φ hφ
      rw [mem_upto] at hφ
      refine hnot_in_scatter φ (by omega) (by omega) ?_
      rw [hcase, recvFrom_eq hm (by omega)]
      split <;> omega
    rw [foldl_phaseStep_B_frame _ _ hframe]
    show runWrites
        (transposeWrites tiling Bo T order (Bo * m) order (Bo * m) (s.A m))
        (s.B m) ((Bo * r + i₀) + order * j) = _
    have hp : (Bo * r + i₀) + order * j = (i₀ + Bo * m) + order * j := by
      rw [hcase]; ring
    rw [hp, runWrites_transpose_eq hT hBoord hj hi₀ (s.B m)]
    have hx : j + Bo * m < order := horder ▸ inBlock_lt hj hm
    rw [hA m hm (j + Bo * m) hx i₀ hi₀]
    congr 1
    rw [hcase]
    ring
  · -- the element lies in peer r's row block: written by the scatter of the
    -- unique phase with recv_from = r, untouched before and after
    set φ₀ := if m ≤ r then r - m else r + n - m with hφ₀
    have hφ₀1 : 1 ≤ φ₀ := by rw [hφ₀]; split <;> omega
    have hφ₀n : φ₀ < n := by rw [hφ₀]; split <;> omega
    have hrf₀ : recvFrom n m φ₀ = r := by
      rw [recvFrom_eq hm hφ₀n, hφ₀]
      split <;> split <;> omega
    have hsplit : upto 1 n = upto 1 φ₀ ++ φ₀ :: upto (φ₀ + 1) n := by
      unfold upto
      have h1 : n - φ₀ = (n - (φ₀ + 1)) + 1 := by omega
      have h2 := List.range'_append_1 1 (φ₀ - 1) (n - φ₀)
      have h3 : 1 + (φ₀ - 1) = φ₀ := by omega
      have h4 : n - φ₀ + (φ₀ - 1) = n - 1 := by omega
      rw [h3, h4] at h2
      rw [← h2, h1, List.range'_succ]
    have hframe : ∀ φ ∈ upto (φ₀ + 1) n, ∀ i' j', i' < Bo → j' < Bo →
        (i' + recvFrom n m φ * Bo) + order * j' ≠ (Bo * r + i₀) + order * j := by
      intro φ hφ
      rw [mem_upto] at hφ
      refine hnot_in_scatter φ (by omega) (by omega) ?_
      intro he
      have : φ = φ₀ := recvFrom_inj hm (by omega) hφ₀n (by rw [he, hrf₀])
      omega
    rw [hsplit, List.foldl_append, List.foldl_cons, foldl_phaseStep_B_frame _ _ hframe]
    have hp : (Bo * r + i₀) + order * j = (i₀ + recvFrom n m φ₀ * Bo) + order * j := by
      rw [hrf₀]; ring
    rw [hp, phaseStep_B_write horder hm hφ₀n hT hi₀ hj, hrf₀, foldl_phaseStep_A]
    show s.A r ((j + m * Bo) + order * i₀) = _
    have hx : j + m * Bo < order := by
      have := inBlock_lt hj hm
      have h2 : j + Bo * m = j + m * Bo := by ring
      omega
    rw [hA r hrn (j + m * Bo) hx i₀ hi₀]
    congr 1
    ring

/-!
## Claim C2: tiled vs flat transpose
-/

/-- Source buffer holding distinct values, for exercising the transpose. -/
def cexSrc : Buf := fun idx => (idx : ℚ)

/-- An all-zero buffer standing in for uninitialized destination memory. -/
def cexBase : Buf := fun _ => 0

/-- C2 counterexample: with `Block_order = 3` and destination stride `2`
(smaller than the block order, so distinct loop elements hit the same
destination word), the tiled and the flat loop nests write the destination in
different orders and the final contents differ at flat index 2. -/
theorem tiled_flat_differ :
    runWrites (tiledTransposeWrites 3 2 2 0 2 0 cexSrc) cexBase 2
      ≠ runWrites (flatTransposeWrites 3 2 0 2 0 cexSrc) cexBase 2 := by
  decide

/-- C2 (amended): whenever the block order does not exceed the destination
stride — as holds for both uses in the program, stride `order ≥ Block_order`
for the self-transpose and stride `Block_order` for the outgoing block — the
tiled and flat strategies write identical values to every destination
element, for every source, offset, and tile order `> 0`. -/
theorem tiled_eq_flat (Bo T dStr dOff sStr sOff : ℕ) (src base : Buf) (p : ℕ)
    (hT : 0 < T) (hd : Bo ≤ dStr) :
    runWrites (tiledTransposeWrites Bo T dStr dOff sStr sOff src) base p
      = runWrites (flatTransposeWrites Bo dStr dOff sStr sOff src) base p := by
  have h1 : tiledTransposeWrites Bo T dStr dOff sStr sOff src
      = transposeWrites true Bo T dStr dOff sStr sOff src := rfl
  have h2 : flatTransposeWrites Bo dStr dOff sStr sOff src
      = transposeWrites false Bo T dStr dOff sStr sOff src := rfl
  rw [h1, h2]
  by_cases hp : ∃ i j, i < Bo ∧ j < Bo ∧ p = (j + dOff) + dStr * i
  · obtain ⟨i, j, hi, hj, rfl⟩ := hp
    rw [runWrites_transpose_eq (fun _ => hT) hd hi hj base,
      runWrites_transpose_eq (fun _ => hT) hd hi hj base]
  · push_neg at hp
    rw [runWrites_transpose_ne (fun _ => hT)
        (fun i j hi hj he => hp i j hi hj he.symm) base,
      runWrites_transpose_ne (fun _ => hT)
        (fun i j hi hj he => hp i j hi hj he.symm) base]

theorem tiled_eq_flat_witness :
    0 < 2 ∧ 3 ≤ 4 ∧
      runWrites (tiledTransposeWrites 3 2 4 0 2 0 cexSrc) cexBase 5
        = runWrites (flatTransposeWrites 3 4 0 2 0 cexSrc) cexBase 5 :=
  ⟨by decide, by decide, tiled_eq_flat 3 2 4 0 2 0 cexSrc cexBase 5 (by decide) (by decide)⟩

/-!
## Claim C3: the ring-exchange schedule
-/

/-- C3: for `numPeers ≥ 2`, each phase `1 ≤ phase < numPeers` pairs every peer
with partners distinct from itself; `p` sends to `q` in a phase exactly when
`q` receives from `p` in that phase (the message tag is the phase number on
both sides); and over the phases of one iteration every ordered pair of
distinct peers occurs as (sender, receiver) exactly once. -/
theorem ring_schedule_correct (n : ℕ) (hn : 2 ≤ n) :
    (∀ m φ, m < n → 1 ≤ φ → φ < n →
      sendTo n m φ ≠ m ∧ recvFrom n m φ ≠ m ∧
        ∀ q, q < n → (sendTo n m φ = q ↔ recvFrom n q φ = m)) ∧
    (∀ p q, p < n → q < n → p ≠ q →
      ∃! φ, (1 ≤ φ ∧ φ < n) ∧ sendTo n p φ = q) := by
  constructor
  · intro m φ hm hφ1 hφn
    refine ⟨?_, ?_, ?_⟩
    · rw [sendTo_eq hm hφn]
      split <;> omega
    · rw [recvFrom_eq hm hφn]
      split <;> omega
    · intro q hq
      rw [sendTo_eq hm hφn, recvFrom_eq hq hφn]
      split <;> split <;> omega
  · intro p q hp hq hne
    refine ⟨if q ≤ p then p - q else p + n - q, ⟨⟨?_, ?_⟩, ?_⟩, ?_⟩
    · split <;> omega
    · split <;> omega
    · rw [sendTo_eq hp (by split <;> omega)]
      split <;> split <;> omega
    · intro ψ ⟨⟨h1, h2⟩, h3⟩
      rw [sendTo_eq hp h2] at h3
      split at h3 <;> split <;> omega

theorem ring_schedule_correct_witness :
    2 ≤ 3 ∧
      ((∀ m φ, m < 3 → 1 ≤ φ → φ < 3 →
        sendTo 3 m φ ≠ m ∧ recvFrom 3 m φ ≠ m ∧
          ∀ q, q < 3 → (sendTo 3 m φ = q ↔ recvFrom 3 q φ = m)) ∧
      (∀ p q, p < 3 → q < 3 → p ≠ q →
        ∃! φ, (1 ≤ φ ∧ φ < 3) ∧ sendTo 3 p φ = q)) :=
  ⟨by decide, ring_schedule_correct 3 (by decide)⟩

/-!
## Claims C4 and C8: the tiling decision
-/

/-- C4 counterexample: under the COLLAPSE variant with `order = 46341`,
`Tile_order = 1`, one rank (`Block_order = 46341`) and one thread — a valid
configuration — the spec's exact squared concurrency `46341² ≥ 1` says tiling
stays on, but the program's `concurrency *= concurrency` overflows the 32-bit
`int` to a negative value, `concurrency < nthread_input` fires, and the run is
untiled: the claimed iff fails. -/
theorem tiling_decision_overflow :
    tilingFlag 46341 1 46341 1 true = false ∧
    (0 < 1 ∧ 1 < 46341 ∧ 1 ≤ specConcurrency 46341 1 true) := by
  constructor
  · decide
  · refine ⟨by decide, by decide, ?_⟩
    unfold specConcurrency
    decide

/-- C4 (amended): whenever the concurrency computation fits the 32-bit `int`,
i.e. `ceil(Block_order/Tile_order) ≤ 46340 = ⌊√(2³¹-1)⌋`, the run is tiled
exactly when `0 < Tile_order < order` and the per-axis tile concurrency
`ceil(Block_order / Tile_order)` (squared under the COLLAPSE variant) is at
least the configured thread count; otherwise the run uses the untiled
transpose. -/
theorem tiling_decision_iff (order T Bo nth : ℕ) (coll : Bool)
    (hfit : (Bo + T - 1) / T ≤ 46340) :
    tilingFlag order T Bo nth coll = true ↔
      0 < T ∧ T < order ∧ nth ≤ specConcurrency Bo T coll := by
  have hconc : concurrencyOf Bo T coll = ((specConcurrency Bo T coll : ℕ) : ℤ) := by
    unfold concurrencyOf specConcurrency
    cases coll with
    | false => rw [if_neg (by simp), if_neg (by simp)]
    | true =>
      rw [if_pos rfl, if_pos rfl]
      unfold wrap32
      rw [Nat.cast_mul]
      set c : ℤ := (((Bo + T - 1) / T : ℕ) : ℤ) with hcdef
      have h0 : (0 : ℤ) ≤ c := by rw [hcdef]; exact Int.ofNat_nonneg _
      have h1 : c ≤ 46340 := by rw [hcdef]; exact_mod_cast hfit
      have h2 : c * c ≤ 46340 * 46340 := mul_le_mul h1 h1 h0 (by norm_num)
      have h3 : 0 ≤ c * c := mul_nonneg h0 h0
      rw [Int.emod_eq_of_lt (by omega) (by omega)]
      ring
  unfold tilingFlag tilingWith
  rw [hconc]
  by_cases h1 : 0 < T
  · by_cases h2 : T < order
    · by_cases h3 : ((specConcurrency Bo T coll : ℕ) : ℤ) < (nth : ℤ)
      · simp [h1, h2, h3]
        omega
      · simp [h1, h2, h3]
        omega
    · simp [h1, h2]
  · simp [h1]

theorem tiling_decision_iff_witness :
    (4 + 2 - 1) / 2 ≤ 46340 ∧
    (tilingFlag 4 2 4 1 true = true ↔ 0 < 2 ∧ 2 < 4 ∧ 1 ≤ specConcurrency 4 2 true) :=
  ⟨by decide, tiling_decision_iff 4 2 4 1 true (by decide)⟩

/-- C8: the tiling decision is a total function of its inputs.  When
`Tile_order = 0` the C code divides by zero in floating point and converts the
resulting infinity to `int`; whatever integer that conversion produces, the
short-circuit `tiling && ...` ignores it and the decision is the same
(namely untiled), so the decision is well defined for every tile order. -/
theorem tiling_decision_total (order : ℕ) (nth conc conc' : ℤ) :
    tilingWith order 0 nth conc = tilingWith order 0 nth conc' ∧
    tilingWith order 0 nth conc = false := by
  constructor
  · rfl
  · rfl

/-!
## Claims C1, C6, C9: the iterated engine
-/

theorem iterate_iteration_A {order Bo n T : ℕ} {tiling : Bool} (k : ℕ) :
    ∀ s : GState, ((iteration order Bo n T tiling)^[k] s).A = s.A := by
  induction k with
  | zero => intro s; rfl
  | succ k ih =>
    intro s
    rw [Function.iterate_succ_apply', iteration_A, ih]

/-- Any positive number of iterations leaves `B` holding the transpose. -/
theorem engine_iterate_correct {order Bo n T : ℕ} {tiling : Bool} {s₀ : GState} {k : ℕ}
    (horder : order = n * Bo) (hT : tiling = true → 0 < T) (hk : 1 ≤ k)
    (hA : GoodA order Bo n s₀) {m i j : ℕ} (hm : m < n) (hi : i < order) (hj : j < Bo) :
    ((iteration order Bo n T tiling)^[k] s₀).B m (i + order * j)
      = ((order * i + (j + Bo * m) : ℕ) : ℚ) := by
  obtain ⟨k', rfl⟩ : ∃ k', k = k' + 1 := ⟨k - 1, by omega⟩
  rw [Function.iterate_succ_apply']
  refine iteration_correct horder hT ?_ hm hi hj
  intro m' hm' x hx jA hjA
  rw [iterate_iteration_A]
  exact hA m' hm' x hx jA hjA

/-- C1: for every valid configuration (`numPeers ≥ 1`, `order` divisible by
`numPeers`, any tile order and thread count) and any iteration count `≥ 1`,
after every iteration of the engine each element of every peer's destination
block satisfies `B(i,j) = order*i + (j+colstart)`, given that `A` was
initialized with `A(i,j) = order*(j+colstart) + i`. -/
theorem transpose_engine_correct (order n T nth k : ℕ) (coll : Bool) (s₀ : GState)
    (_hn : 1 ≤ n) (hdvd : n ∣ order) (hk : 1 ≤ k)
    (hA : GoodA order (order / n) n s₀) (m i j : ℕ)
    (hm : m < n) (hi : i < order) (hj : j < order / n) :
    ((iteration order (order / n) n T
        (tilingFlag order T (order / n) nth coll))^[k] s₀).B m (i + order * j)
      = ((order * i + (j + (order / n) * m) : ℕ) : ℚ) :=
  engine_iterate_correct (Nat.mul_div_cancel' hdvd).symm
    (fun h => tilingFlag_T_pos h) hk hA hm hi hj

/-- Concrete two-peer state with `order = 2`, `Block_order = 1`, `A` holding
the initial matrix values. -/
def exState : GState :=
  { A := fun m => fun idx => ((2 * m + idx : ℕ) : ℚ)
    B := fun _ => fun _ => (-1 : ℚ)
    W := fun _ => fun _ => 0 }

theorem transpose_engine_correct_witness :
    (1 ≤ 2 ∧ (2 : ℕ) ∣ 2 ∧ 1 ≤ 1 ∧ GoodA 2 (2 / 2) 2 exState ∧
      0 < 2 ∧ 1 < 2 ∧ 0 < 2 / 2) ∧
    ((iteration 2 (2 / 2) 2 0 (tilingFlag 2 0 (2 / 2) 1 false))^[1] exState).B 0 (1 + 2 * 0)
      = ((2 * 1 + (0 + (2 / 2) * 0) : ℕ) : ℚ) :=
  ⟨⟨by decide, by decide, by decide, by unfold GoodA; decide, by decide, by decide, by decide⟩,
    transpose_engine_correct 2 2 0 1 1 false exState (by decide) (by decide) (by decide)
      (by unfold GoodA; decide) 0 1 0 (by decide) (by decide) (by decide)⟩

/-- C6: with a single peer the phase loop body never executes (the loop list
is empty, so nothing is sent or received and the workspace is never touched —
it need not even be allocated), the iteration reduces to the self-transpose
alone, and the destination still ends up holding the full transpose. -/
theorem single_peer_correct (order Bo T nth k : ℕ) (coll : Bool) (s₀ : GState)
    (hk : 1 ≤ k) (hA : GoodA order order 1 s₀) (i j : ℕ)
    (hi : i < order) (hj : j < order) :
    upto 1 1 = [] ∧
    (∀ tl : Bool, ∀ s : GState, iteration order Bo 1 T tl s =
      { A := s.A
        B := fun m =>
          runWrites (transposeWrites tl Bo T order (Bo * m) order (Bo * m) (s.A m)) (s.B m)
        W := s.W }) ∧
    ((iteration order order 1 T (tilingFlag order T order nth coll))^[k] s₀).B 0
        (i + order * j)
      = ((order * i + (j + order * 0) : ℕ) : ℚ) := by
  refine ⟨rfl, fun tl s => rfl, ?_⟩
  exact engine_iterate_correct (Nat.one_mul order).symm
    (fun h => tilingFlag_T_pos h) hk hA (by omega) hi hj

/-- Concrete one-peer state with `order = 2 = Block_order`. -/
def exState1 : GState :=
  { A := fun _ => fun idx => (idx : ℚ)
    B := fun _ => fun _ => (-1 : ℚ)
    W := fun _ => fun _ => 0 }

theorem single_peer_correct_witness :
    (1 ≤ 1 ∧ GoodA 2 2 1 exState1 ∧ 1 < 2 ∧ 1 < 2) ∧
    (upto 1 1 = [] ∧
      (∀ tl : Bool, ∀ s : GState, iteration 2 2 1 3 tl s =
        { A := s.A
          B := fun m =>
            runWrites (transposeWrites tl 2 3 2 (2 * m) 2 (2 * m) (s.A m)) (s.B m)
          W := s.W }) ∧
      ((iteration 2 2 1 3 (tilingFlag 2 3 2 1 false))^[1] exState1).B 0 (1 + 2 * 1)
        = ((2 * 1 + (1 + 2 * 0) : ℕ) : ℚ)) :=
  ⟨⟨by decide, by unfold GoodA; decide, by decide, by decide⟩,
    single_peer_correct 2 2 3 1 1 false exState1 (by decide) (by unfold GoodA; decide) 1 1
      (by decide) (by decide)⟩

/-- C9: the source block `A` is never modified after initialization: one
iteration after another only writes `B` and the workspace, so after any number
of iterations every element of `A` still holds `order*(j+colstart) + i`. -/
theorem source_block_unmodified (order Bo n T : ℕ) (tiling : Bool) (k : ℕ) (s₀ : GState)
    (hA : GoodA order Bo n s₀) :
    ((iteration order Bo n T tiling)^[k] s₀).A = s₀.A ∧
    (∀ m, m < n → ∀ x, x < order → ∀ jA, jA < Bo →
      ((iteration order Bo n T tiling)^[k] s₀).A m (x + order * jA)
        = ((order * (jA + Bo * m) + x : ℕ) : ℚ)) := by
  refine ⟨iterate_iteration_A k s₀, ?_⟩
  intro m hm x hx jA hjA
  rw [iterate_iteration_A]
  exact hA m hm x hx jA hjA

theorem source_block_unmodified_witness :
    GoodA 2 1 2 exState ∧
    (((iteration 2 1 2 0 false)^[3] exState).A = exState.A ∧
      (∀ m, m < 2 → ∀ x, x < 2 → ∀ jA, jA < 1 →
        ((iteration 2 1 2 0 false)^[3] exState).A m (x + 2 * jA)
          = ((2 * (jA + 1 * m) + x : ℕ) : ℚ))) :=
  ⟨by unfold GoodA; decide, source_block_unmodified 2 1 2 0 false 3 exState (by unfold GoodA; decide)⟩

/-!
## Claim C5: the validator (lines 409-419)

```
abserr = 0.0; istart = 0;
for (j=0;j<Block_order;j++) for (i=0;i<order; i++)
  abserr += ABS(B(i,j) - (double)(order*i + j+colstart));
MPI_Reduce(&abserr, &abserr_tot, 1, MPI_DOUBLE, MPI_SUM, root, ...);
if (abserr_tot < epsilon) ... else error
```
-/

/-- Per-peer aggregate absolute error of the final `B` against the analytic
transpose values. -/
def abserrOf (order Bo colstart : ℕ) (B : Buf) : ℚ :=
  ((upto 0 Bo).flatMap fun j => (upto 0 order).map fun i =>
    |B (i + order * j) - ((order * i + j + colstart : ℕ) : ℚ)|).sum

/-- The sum-reduction of the per-peer aggregates across all peers. -/
def abserrTot (n : ℕ) (errs : ℕ → ℚ) : ℚ := ((upto 0 n).map errs).sum

/-- The validation tolerance `epsilon = 1.e-8`. -/
def epsilon : ℚ := 1 / 100000000

/-- The root's verdict: the run validates iff `abserr_tot < epsilon`. -/
def validates (err : ℚ) : Bool := decide (err < epsilon)

/-- C5: the validator sums, over every element of the final `B`, the absolute
difference from `order*i + (j+colstart)`, and sum-reduces across peers.  On a
`B` that holds the exact transpose values every per-peer aggregate and the
global aggregate are exactly `0`, the verdict is "validates" exactly when the
aggregate is below `1e-8`, and this correct `B` therefore validates. -/
theorem validator_correct (order Bo n : ℕ) (Bp : ℕ → Buf)
    (hB : ∀ m, m < n → ∀ i, i < order → ∀ j, j < Bo →
      Bp m (i + order * j) = ((order * i + j + Bo * m : ℕ) : ℚ)) :
    (∀ m, m < n → abserrOf order Bo (Bo * m) (Bp m) = 0) ∧
    abserrTot n (fun m => abserrOf order Bo (Bo * m) (Bp m)) = 0 ∧
    (∀ e : ℚ, validates e = true ↔ e < epsilon) ∧
    validates (abserrTot n (fun m => abserrOf order Bo (Bo * m) (Bp m))) = true := by
  have hpeer : ∀ m, m < n → abserrOf order Bo (Bo * m) (Bp m) = 0 := by
    intro m hm
    apply List.sum_eq_zero
    intro x hx
    rw [List.mem_flatMap] at hx
    obtain ⟨j, hj, hx⟩ := hx
    rw [List.mem_map] at hx
    obtain ⟨i, hi, rfl⟩ := hx
    rw [mem_upto] at hi hj
    rw [hB m hm i (by omega) j (by omega), sub_self, abs_zero]
  have htot : abserrTot n (fun m => abserrOf order Bo (Bo * m) (Bp m)) = 0 := by
    apply List.sum_eq_zero
    intro x hx
    rw [List.mem_map] at hx
    obtain ⟨m, hm, rfl⟩ := hx
    rw [mem_upto] at hm
    exact hpeer m (by omega)
  refine ⟨hpeer, htot, fun e => by simp [validates], ?_⟩
  rw [htot]
  norm_num [validates, epsilon]

/-- A concrete correct destination buffer for `order = 2`, `Block_order = 1`,
two peers. -/
def exB : ℕ → Buf := fun m => fun idx => ((2 * (idx % 2) + idx / 2 + m : ℕ) : ℚ)

theorem validator_correct_witness :
    (∀ m, m < 2 → ∀ i, i < 2 → ∀ j, j < 1 →
      exB m (i + 2 * j) = ((2 * i + j + 1 * m : ℕ) : ℚ)) ∧
    ((∀ m, m < 2 → abserrOf 2 1 (1 * m) (exB m) = 0) ∧
      abserrTot 2 (fun m => abserrOf 2 1 (1 * m) (exB m)) = 0 ∧
      (∀ e : ℚ, validates e = true ↔ e < epsilon) ∧
      validates (abserrTot 2 (fun m => abserrOf 2 1 (1 * m) (exB m))) = true) :=
  ⟨by decide, validator_correct 2 1 2 exB (by decide)⟩

/-!
## Claim C7: iteration loop bounds, timing and reporting (lines 321-327 and
405-422)

`for (iter = 0; iter<=iterations; iter++)` executes the transpose
`iterations+1` times; the timer starts (after a barrier) at the top of the
`iter == 1` execution and is read again after the loop, so exactly the last
`iterations` executions are timed.  The per-peer elapsed time is max-reduced,
`avgtime = trans_time/iterations`, `bytes = 2*sizeof(double)*order*order`,
and the report prints `1.0E-06*bytes/avgtime` MB/s.
-/

/-- The iteration indices the loop `for (iter = 0; iter <= iterations; ...)`
executes. -/
def loopIters (iterations : ℕ) : List ℕ := upto 0 (iterations + 1)

/-- The executions covered by the timer: all with `iter ≥ 1`. -/
def timedIters (iterations : ℕ) : List ℕ :=
  (loopIters iterations).filter fun it => decide (1 ≤ it)

/-- A peer's measured elapsed time, given the wall-clock duration of each of
its transpose executions. -/
def localTransTime (iterations : ℕ) (dur : ℕ → ℚ) : ℚ :=
  ((timedIters iterations).map dur).sum

/-- `MPI_Reduce(..., MPI_MAX, ...)` over a list of values. -/
def maxReduce : List ℚ → ℚ
  | [] => 0
  | x :: xs => xs.foldl max x

/-- The max-reduced elapsed time across the `n` peers. -/
def transTime (n iterations : ℕ) (dur : ℕ → ℕ → ℚ) : ℚ :=
  maxReduce ((upto 0 n).map fun m => localTransTime iterations (dur m))

/-- `avgtime = trans_time/(double)iterations`. -/
def avgtime (t : ℚ) (iterations : ℕ) : ℚ := t / (iterations : ℚ)

/-- `bytes = 2UL * sizeof(double) * order * order`. -/
def bytesOf (order : ℕ) : ℕ := 2 * 8 * order * order

/-- The reported rate `1.0E-06*bytes/avgtime` (MB/s). -/
def rateMBs (order : ℕ) (avg : ℚ) : ℚ := ((1 : ℚ) / 1000000) * (bytesOf order : ℚ) / avg

theorem maxReduce_spec (l : List ℚ) (hl : l ≠ []) :
    (∀ x ∈ l, x ≤ maxReduce l) ∧ maxReduce l ∈ l := by
  obtain ⟨x, xs, rfl⟩ := List.exists_cons_of_ne_nil hl
  have key : ∀ (xs : List ℚ) (a : ℚ),
      (a ≤ xs.foldl max a ∧ ∀ x ∈ xs, x ≤ xs.foldl max a) ∧
        xs.foldl max a ∈ a :: xs := by
    intro xs
    induction xs with
    | nil => intro a; exact ⟨⟨le_refl a, by simp⟩, by simp⟩
    | cons y ys ih =>
      intro a
      obtain ⟨⟨h1, h2⟩, h3⟩ := ih (max a y)
      refine ⟨⟨le_trans (le_max_left a y) h1, ?_⟩, ?_⟩
      · intro x hx
        rcases List.mem_cons.1 hx with rfl | hx
        · exact le_trans (le_max_right a x) h1
        · exact h2 x hx
      · simp only [List.foldl_cons]
        rcases List.mem_cons.1 h3 with h | h
        · rcases max_choice a y with hm | hm
          · rw [h, hm]; exact List.mem_cons_self _ _
          · rw [h, hm]; exact List.mem_cons_of_mem _ (List.mem_cons_self _ _)
        · exact List.mem_cons_of_mem _ (List.mem_cons_of_mem _ h)
  obtain ⟨⟨h1, h2⟩, h3⟩ := key xs x
  refine ⟨?_, h3⟩
  intro z hz
  rcases List.mem_cons.1 hz with rfl | hz2
  · exact h1
  · exact h2 z hz2

/-- C7: with `iterations = k ≥ 1`, the transpose executes `k+1` times; the
timed executions are exactly the `k` executions after the warm-up; the
reduced time is (an attained) upper bound of every peer's local time; the
average divides the reduced time by `k`; and the reported MB/s rate times
`10^6` equals `2 * 8 * order^2` bytes divided by the average time. -/
theorem timing_report_correct (n k order : ℕ) (dur : ℕ → ℕ → ℚ)
    (hk : 1 ≤ k) (hn : 1 ≤ n) :
    (loopIters k).length = k + 1 ∧
    timedIters k = upto 1 (k + 1) ∧
    (∀ m, m < n → localTransTime k (dur m) ≤ transTime n k dur) ∧
    (∃ m, m < n ∧ transTime n k dur = localTransTime k (dur m)) ∧
    avgtime (transTime n k dur) k * (k : ℚ) = transTime n k dur ∧
    (∀ a : ℚ, rateMBs order a * 1000000 = ((2 * 8 * order * order : ℕ) : ℚ) / a) := by
  have hlen : (loopIters k).length = k + 1 := by
    unfold loopIters upto
    rw [List.length_range']
    omega
  have htimed : timedIters k = upto 1 (k + 1) := by
    unfold timedIters loopIters
    have h1 : upto 0 (k + 1) = 0 :: upto 1 (k + 1) := by
      unfold upto
      rw [Nat.sub_zero, List.range'_succ]
      norm_num
    rw [h1]
    rw [show ((0 :: upto 1 (k + 1)).filter fun it => decide (1 ≤ it))
        = ((upto 1 (k + 1)).filter fun it => decide (1 ≤ it)) from by simp]
    apply List.filter_eq_self.2
    intro a ha
    rw [mem_upto] at ha
    simp only [decide_eq_true_eq]
    omega
  have hmapne : ((upto 0 n).map fun m => localTransTime k (dur m)) ≠ [] := by
    simp only [ne_eq, List.map_eq_nil_iff]
    unfold upto
    rw [List.range'_eq_nil]
    omega
  obtain ⟨hub, hmem⟩ := maxReduce_spec _ hmapne
  refine ⟨hlen, htimed, ?_, ?_, ?_, ?_⟩
  · intro m hm
    refine hub _ (List.mem_map.2 ⟨m, ?_, rfl⟩)
    rw [mem_upto]
    omega
  · obtain ⟨m, hm, he⟩ := List.mem_map.1 hmem
    rw [mem_upto] at hm
    exact ⟨m, by omega, he.symm⟩
  · unfold avgtime
    rw [div_mul_cancel₀]
    intro h
    rw [Nat.cast_eq_zero] at h
    omega
  · intro a
    unfold rateMBs bytesOf
    ring

theorem timing_report_correct_witness :
    (1 ≤ 2 ∧ 1 ≤ 3) ∧
    ((loopIters 2).length = 2 + 1 ∧
      timedIters 2 = upto 1 (2 + 1) ∧
      (∀ m, m < 3 → localTransTime 2 (cexBase) ≤ transTime 3 2 (fun _ => cexBase)) ∧
      (∃ m, m < 3 ∧ transTime 3 2 (fun _ => cexBase) = localTransTime 2 (cexBase)) ∧
      avgtime (transTime 3 2 (fun _ => cexBase)) 2 * (2 : ℚ) = transTime 3 2 (fun _ => cexBase) ∧
      (∀ a : ℚ, rateMBs 4 a * 1000000 = ((2 * 8 * 4 * 4 : ℕ) : ℚ) / a)) := by
  refine ⟨⟨by decide, by decide⟩, ?_⟩
  have h := timing_report_correct 3 2 4 (fun _ => cexBase) (by decide) (by decide)
  exact h

/-!
## Claim C10: write coverage of `B` within one iteration
-/

/-- The destination indices a write list touches, in order. -/
def writePositions (ws : List (ℕ × ℚ)) : List ℕ := ws.map Prod.fst

/-- All flat `B` indices written during one iteration by peer `m`: first the
self-transpose (destination offset `colstart = Block_order * m`), then one
scatter per phase (destination offset `recv_from * Block_order`). -/
def iterationBPositions (order Bo n T : ℕ) (tiling : Bool) (m : ℕ) (src work : Buf) :
    List ℕ :=
  writePositions (transposeWrites tiling Bo T order (Bo * m) order (Bo * m) src)
    ++ (upto 1 n).flatMap fun φ =>
        writePositions (scatterWrites order Bo (recvFrom n m φ * Bo) work)

theorem mem_writePositions {ws : List (ℕ × ℚ)} {p : ℕ} :
    p ∈ writePositions ws ↔ ∃ w ∈ ws, w.1 = p := by
  simp [writePositions]

theorem mem_writePositions_transpose {tiling : Bool} {Bo T dStr dOff sStr sOff : ℕ}
    {src : Buf} (hT : tiling = true → 0 < T) {p : ℕ} :
    p ∈ writePositions (transposeWrites tiling Bo T dStr dOff sStr sOff src) ↔
      ∃ i j, i < Bo ∧ j < Bo ∧ p = (j + dOff) + dStr * i := by
  rw [mem_writePositions]
  constructor
  · rintro ⟨w, hw, rfl⟩
    obtain ⟨i, j, hi, hj, rfl⟩ := (mem_transposeWrites hT).1 hw
    exact ⟨i, j, hi, hj, rfl⟩
  · rintro ⟨i, j, hi, hj, rfl⟩
    exact ⟨_, (mem_transposeWrites hT).2 ⟨i, j, hi, hj, rfl⟩, rfl⟩

theorem mem_writePositions_scatter {order Bo istart : ℕ} {work : Buf} {p : ℕ} :
    p ∈ writePositions (scatterWrites order Bo istart work) ↔
      ∃ i j, i < Bo ∧ j < Bo ∧ p = (i + istart) + order * j := by
  rw [mem_writePositions]
  constructor
  · rintro ⟨w, hw, rfl⟩
    obtain ⟨j, i, hj, hi, rfl⟩ := mem_scatterWrites.1 hw
    exact ⟨i, j, hi, hj, rfl⟩
  · rintro ⟨i, j, hi, hj, rfl⟩
    exact ⟨_, mem_scatterWrites.2 ⟨j, i, hj, hi, rfl⟩, rfl⟩

theorem nodup_upto (lo hi : ℕ) : (upto lo hi).Nodup := List.nodup_range' lo (hi - lo)

theorem nodup_writePositions_flat {Bo dStr dOff sStr sOff : ℕ} {src : Buf}
    (hd : Bo ≤ dStr) :
    (writePositions (flatTransposeWrites Bo dStr dOff sStr sOff src)).Nodup := by
  have he : writePositions (flatTransposeWrites Bo dStr dOff sStr sOff src)
      = (upto 0 Bo).flatMap fun i => (upto 0 Bo).map fun j => (j + dOff) + dStr * i := by
    unfold writePositions flatTransposeWrites loop2
    rw [List.map_flatMap]
    congr 1
    funext i
    rw [List.map_map]
    rfl
  rw [he, List.nodup_flatMap]
  constructor
  · intro i _
    refine List.Nodup.map_on ?_ (nodup_upto 0 Bo)
    intro j₁ _ j₂ _ he'
    linarith
  · refine (nodup_upto 0 Bo).imp ?_
    intro i₁ i₂ hne
    rw [Function.onFun]
    intro a ha₁ ha₂
    rw [List.mem_map] at ha₁ ha₂
    obtain ⟨j₁, hj₁, rfl⟩ := ha₁
    obtain ⟨j₂, hj₂, he'⟩ := ha₂
    rw [mem_upto] at hj₁ hj₂
    have hstrip : j₂ + dStr * i₂ = j₁ + dStr * i₁ := by linarith
    obtain ⟨_, e2⟩ := addMulInj (by omega) (by omega) hstrip
    exact hne e2.symm

theorem nodup_writePositions_transpose {tiling : Bool} {Bo T dStr dOff sStr sOff : ℕ}
    {src : Buf} (hT : tiling = true → 0 < T) (hd : Bo ≤ dStr) :
    (writePositions (transposeWrites tiling Bo T dStr dOff sStr sOff src)).Nodup := by
  cases tiling with
  | false =>
    rw [show transposeWrites false Bo T dStr dOff sStr sOff src
        = flatTransposeWrites Bo dStr dOff sStr sOff src from rfl]
    exact nodup_writePositions_flat hd
  | true =>
    have hperm := (tiled_perm_flat Bo T dStr dOff sStr sOff (hT rfl) src).map Prod.fst
    rw [show transposeWrites true Bo T dStr dOff sStr sOff src
        = tiledTransposeWrites Bo T dStr dOff sStr sOff src from rfl]
    exact hperm.nodup_iff.2 (nodup_writePositions_flat hd)

theorem nodup_writePositions_scatter {order Bo istart : ℕ} {work : Buf}
    (hio : Bo + istart ≤ order) :
    (writePositions (scatterWrites order Bo istart work)).Nodup := by
  have he : writePositions (scatterWrites order Bo istart work)
      = (upto 0 Bo).flatMap fun j => (upto 0 Bo).map fun i => (i + istart) + order * j := by
    unfold writePositions scatterWrites loop2
    rw [List.map_flatMap]
    congr 1
    funext j
    rw [List.map_map]
    rfl
  rw [he, List.nodup_flatMap]
  constructor
  · intro j _
    refine List.Nodup.map_on ?_ (nodup_upto 0 Bo)
    intro i₁ _ i₂ _ he'
    linarith
  · refine (nodup_upto 0 Bo).imp ?_
    intro j₁ j₂ hne
    rw [Function.onFun]
    intro a ha₁ ha₂
    rw [List.mem_map] at ha₁ ha₂
    obtain ⟨i₁, hi₁, rfl⟩ := ha₁
    obtain ⟨i₂, hi₂, he'⟩ := ha₂
    rw [mem_upto] at hi₁ hi₂
    obtain ⟨_, e2⟩ := addMulInj (d := order) (by omega) (by omega) he'
    exact hne e2.symm

theorem count_flatMap_nodup (l : List ℕ) (F : ℕ → List ℕ) (p : ℕ)
    (hF : ∀ φ ∈ l, (F φ).Nodup) :
    (l.flatMap F).count p = l.countP fun φ => decide (p ∈ F φ) := by
  induction l with
  | nil => rfl
  | cons φ t ih =>
    rw [List.flatMap_cons, List.count_append, List.countP_cons,
      ih fun ψ hψ => hF ψ (by simp [hψ])]
    by_cases hmem : p ∈ F φ
    · rw [List.count_eq_one_of_mem (hF φ (by simp)) hmem, if_pos (by simpa using hmem)]
      omega
    · rw [List.count_eq_zero_of_not_mem hmem, if_neg (by simpa using hmem)]
      omega

/-- C10: within one iteration, the self-transpose writes exactly the rows
`[colstart, colstart + Block_order)` of `B`, the scatter of a phase writes
exactly the rows `[recv_from*Block_order, (recv_from+1)*Block_order)`, and —
because the `recv_from` values of the phases are pairwise distinct and
distinct from the peer's own index — every element of `B` is written exactly
once. -/
theorem every_element_written_once (order Bo n T : ℕ) (tiling : Bool) (m : ℕ)
    (src work : Buf) (horder : order = n * Bo) (hm : m < n)
    (hT : tiling = true → 0 < T) :
    (∀ p, p ∈ writePositions (transposeWrites tiling Bo T order (Bo * m) order (Bo * m) src)
      ↔ ∃ i j, i < Bo ∧ j < Bo ∧ p = (j + Bo * m) + order * i) ∧
    (∀ φ p, p ∈ writePositions (scatterWrites order Bo (recvFrom n m φ * Bo) work)
      ↔ ∃ i j, i < Bo ∧ j < Bo ∧ p = (i + recvFrom n m φ * Bo) + order * j) ∧
    (∀ i j, i < order → j < Bo →
      (iterationBPositions order Bo n T tiling m src work).count (i + order * j) = 1) := by
  have hn : 0 < n := by omega
  refine ⟨fun p => mem_writePositions_transpose hT,
    fun φ p => mem_writePositions_scatter, ?_⟩
  intro i j hi hj
  have hBo : 0 < Bo := by
    rcases Nat.eq_zero_or_pos Bo with h | h
    · subst h; rw [Nat.mul_zero] at horder; omega
    · exact h
  obtain ⟨r, i₀, hi₀, hrn, rfl⟩ :
      ∃ r i₀, i₀ < Bo ∧ r < n ∧ i = Bo * r + i₀ := by
    refine ⟨i / Bo, i % Bo, Nat.mod_lt _ hBo, ?_, (Nat.div_add_mod i Bo).symm⟩
    rw [Nat.div_lt_iff_lt_mul hBo]
    omega
  have hrow_lt : ∀ i' r', i' < Bo → r' < n → i' + r' * Bo < order := by
    intro i' r' h1 h2
    have h3 := inBlock_lt h1 h2
    have h4 : i' + Bo * r' = i' + r' * Bo := by ring
    omega
  have hp_lt : Bo * r + i₀ < order := by
    have := hrow_lt i₀ r hi₀ hrn
    omega
  -- membership of the target position in the self-transpose positions
  have hself : (Bo * r + i₀) + order * j
        ∈ writePositions (transposeWrites tiling Bo T order (Bo * m) order (Bo * m) src)
      ↔ r = m := by
    rw [mem_writePositions_transpose hT]
    constructor
    · rintro ⟨i', j', hi', hj', he⟩
      have h1 : j' + Bo * m < order := horder ▸ inBlock_lt hj' hm
      obtain ⟨e1, e2⟩ := addMulInj (d := order) h1 hp_lt he.symm
      have h5 : j' + Bo * m = i₀ + Bo * r := by linarith
      obtain ⟨_, e4⟩ := addMulInj (d := Bo) hj' hi₀ h5
      omega
    · rintro rfl
      refine ⟨j, i₀, hj, hi₀, ?_⟩
      ring
  -- membership of the target position in the scatter positions of a phase
  have hscat : ∀ φ, φ < n →
      ((Bo * r + i₀) + order * j
          ∈ writePositions (scatterWrites order Bo (recvFrom n m φ * Bo) work)
        ↔ recvFrom n m φ = r) := by
    intro φ hφ
    rw [mem_writePositions_scatter]
    have hrfn : recvFrom n m φ < n := recvFrom_lt hn
    constructor
    · rintro ⟨i', j', hi', hj', he⟩
      have h1 : i' + recvFrom n m φ * Bo < order := hrow_lt i' _ hi' hrfn
      obtain ⟨e1, e2⟩ := addMulInj (d := order) h1 hp_lt he.symm
      have h5 : i' + Bo * recvFrom n m φ = i₀ + Bo * r := by nlinarith
      obtain ⟨_, e4⟩ := addMulInj (d := Bo) hi' hi₀ h5
      exact e4
    · intro he
      refine ⟨i₀, j, hi₀, hj, ?_⟩
      rw [he]
      ring
  unfold iterationBPositions
  rw [List.count_append]
  have hcnt_flat := count_flatMap_nodup (upto 1 n)
    (fun φ => writePositions (scatterWrites order Bo (recvFrom n m φ * Bo) work))
    ((Bo * r + i₀) + order * j)
    (fun φ _ => nodup_writePositions_scatter (by
      have h0 : recvFrom n m φ < n := recvFrom_lt hn
      have h1 : (recvFrom n m φ + 1) * Bo ≤ n * Bo := Nat.mul_le_mul_right Bo (by omega)
      have h2 : (recvFrom n m φ + 1) * Bo = Bo + recvFrom n m φ * Bo := by ring
      omega))
  rw [hcnt_flat]
  show (writePositions
      (transposeWrites tiling Bo T order (Bo * m) order (Bo * m) src)).count
        ((Bo * r + i₀) + order * j)
    + ((upto 1 n).countP fun φ => decide ((Bo * r + i₀) + order * j
        ∈ writePositions (scatterWrites order Bo (recvFrom n m φ * Bo) work))) = 1
  by_cases hcase : r = m
  · -- the self-transpose writes it, no scatter does
    have hc1 : ((Bo * r + i₀) + order * j)
        ∈ writePositions (transposeWrites tiling Bo T order (Bo * m) order (Bo * m) src) :=
      hself.2 hcase
    rw [List.count_eq_one_of_mem
      (nodup_writePositions_transpose hT (by
        calc Bo = 1 * Bo := (Nat.one_mul Bo).symm
          _ ≤ n * Bo := Nat.mul_le_mul_right Bo hn
          _ = order := horder.symm)) hc1]
    have hc2 : ((upto 1 n).countP fun φ => decide ((Bo * r + i₀) + order * j
        ∈ writePositions (scatterWrites order Bo (recvFrom n m φ * Bo) work))) = 0 := by
      rw [List.countP_eq_zero]
      intro φ hφ
      rw [mem_upto] at hφ
      simp only [decide_eq_true_eq]
      rw [hscat φ (by omega)]
      rw [recvFrom_eq hm (by omega)]
      split <;> omega
    omega
  · -- exactly the phase with recv_from = r scatters it
    have hc1 : ((Bo * r + i₀) + order * j)
        ∉ writePositions (transposeWrites tiling Bo T order (Bo * m) order (Bo * m) src) := by
      intro hmem
      exact hcase (hself.1 hmem)
    rw [List.count_eq_zero_of_not_mem hc1]
    set φ₀ := if m ≤ r then r - m else r + n - m with hφ₀
    have hφ₀1 : 1 ≤ φ₀ := by rw [hφ₀]; split <;> omega
    have hφ₀n : φ₀ < n := by rw [hφ₀]; split <;> omega
    have hrf₀ : recvFrom n m φ₀ = r := by
      rw [recvFrom_eq hm hφ₀n, hφ₀]
      split <;> split <;> omega
    have hsplit : upto 1 n = upto 1 φ₀ ++ φ₀ :: upto (φ₀ + 1) n := by
      unfold upto
      have h1 : n - φ₀ = (n - (φ₀ + 1)) + 1 := by omega
      have h2 := List.range'_append_1 1 (φ₀ - 1) (n - φ₀)
      have h3 : 1 + (φ₀ - 1) = φ₀ := by omega
      have h4 : n - φ₀ + (φ₀ - 1) = n - 1 := by omega
      rw [h3, h4] at h2
      rw [← h2, h1, List.range'_succ]
    rw [hsplit, List.countP_append, List.countP_cons]
    have hone : (decide ((Bo * r + i₀) + order * j
        ∈ writePositions (scatterWrites order Bo (recvFrom n m φ₀ * Bo) work))) = true := by
      simp only [decide_eq_true_eq]
      exact (hscat φ₀ hφ₀n).2 hrf₀
    have hzero : ∀ φ, 1 ≤ φ → φ < n → φ ≠ φ₀ →
        ¬((Bo * r + i₀) + order * j
          ∈ writePositions (scatterWrites order Bo (recvFrom n m φ * Bo) work)) := by
      intro φ h1 h2 hne hmem
      have hre := (hscat φ h2).1 hmem
      exact hne (recvFrom_inj hm h2 hφ₀n (by rw [hre, hrf₀]))
    have hleft : ((upto 1 φ₀).countP fun φ => decide ((Bo * r + i₀) + order * j
        ∈ writePositions (scatterWrites order Bo (recvFrom n m φ * Bo) work))) = 0 := by
      rw [List.countP_eq_zero]
      intro φ hφ
      rw [mem_upto] at hφ
      simp only [decide_eq_true_eq]
      exact hzero φ (by omega) (by omega) (by omega)
    have hright : ((upto (φ₀ + 1) n).countP fun φ => decide ((Bo * r + i₀) + order * j
        ∈ writePositions (scatterWrites order Bo (recvFrom n m φ * Bo) work))) = 0 := by
      rw [List.countP_eq_zero]
      intro φ hφ
      rw [mem_upto] at hφ
      simp only [decide_eq_true_eq]
      exact hzero φ (by omega) (by omega) (by omega)
    rw [hleft, hright, if_pos hone]

theorem every_element_written_once_witness :
    ((2 : ℕ) = 2 * 1 ∧ 0 < 2 ∧ (false = true → 0 < 0)) ∧
    ((∀ p, p ∈ writePositions (transposeWrites false 1 0 2 (1 * 0) 2 (1 * 0) cexSrc)
        ↔ ∃ i j, i < 1 ∧ j < 1 ∧ p = (j + 1 * 0) + 2 * i) ∧
      (∀ φ p, p ∈ writePositions (scatterWrites 2 1 (recvFrom 2 0 φ * 1) cexBase)
        ↔ ∃ i j, i < 1 ∧ j < 1 ∧ p = (i + recvFrom 2 0 φ * 1) + 2 * j) ∧
      (∀ i j, i < 2 → j < 1 →
        (iterationBPositions 2 1 2 0 false 0 cexSrc cexBase).count (i + 2 * j) = 1)) :=
  ⟨⟨by decide, by decide, by decide⟩,
    every_element_written_once 2 1 2 0 false 0 cexSrc cexBase (by decide) (by decide)
      (by decide)⟩

end PRKTranspose
